import Mathlib

/-!
Shallow embedding of `cybereason_hash_collector.py` (class
`CybereasonHashCollector`): the hash validator, the batch extractor, the
paginated primary collection loop `_get_file_hashes_direct`, the Malop
fallback `_get_file_hashes_from_malops`, the orchestration
`_collect_hashes_efficiently`, and the row construction of
`_save_hashes_to_csv`.

Modelling conventions:
* A Python `set` of strings is a duplicate-free `List String`; insertion
  order stands in for the set's arbitrary iteration order (`insertHash`,
  `updateSet`).
* One entity of `resultIdToElementDataMap` is an `Entity`: its
  `simpleValues` dict maps a field name to that field's `values` list
  (a missing field, or a field whose `values` key is missing or empty,
  is the empty list / an absent key).
* One HTTP round trip of the loop is a `Response`: a 200 answer with the
  parsed entity map, a non-200 status, a `RequestException` whose text
  matches "Connection broken"/"IncompleteRead", or any other
  `RequestException`.
* The data source is a function from the request's pagination parameters
  `(pageSize, skip)` to the `Response` the server gives.
* The `while True` loop runs on explicit fuel; a run that exhausts its
  fuel reports `outOfFuel`.  The Python loop has no such bound (its
  `max_batches` guard is part of the embedded step), so every claim is
  read at sufficient fuel.
* Python truthiness of the `limit` integer (`if limit:`) is `limitValue`:
  `None` and `0` are falsy.
-/

namespace Cybereason

/-- One entity record of a query response: the `simpleValues` mapping from
field name to the field's `values` list. -/
structure Entity where
  simpleValues : List (String × List String)
deriving DecidableEq

/-- The outcome of one `session.post` of the collection loop. -/
inductive Response where
  | ok (file_hashes : List Entity)
  | non200
  | transientError
  | requestError
deriving DecidableEq

/-- Why `_get_file_hashes_direct` left its `while True` loop; `outOfFuel`
marks only an exhausted fuel budget of the embedding. -/
inductive StopReason where
  | pageEmpty
  | stagnant
  | limitReached
  | shortPage
  | batchCap
  | httpFailure
  | requestFailure
  | outOfFuel
deriving DecidableEq

/-- The state `_get_file_hashes_direct` returns and the statistics it
accumulated (`hashes`, `skip`, `stats['batches_processed']`,
`stats['errors']`), plus the reason the loop stopped. -/
structure LoopResult where
  hashes : List String
  skip : Nat
  batches_processed : Nat
  errors : Nat
  reason : StopReason
deriving DecidableEq

/-- Python `hashes.add(h)`: a set insertion on the duplicate-free list. -/
def insertHash (hashes : List String) (h : String) : List String :=
  if h ∈ hashes then hashes else hashes ++ [h]

/-- Python `hashes.update(new_hashes)`: insert every element in order. -/
def updateSet (hashes new_hashes : List String) : List String :=
  new_hashes.foldl insertHash hashes

/-- The validator `_is_valid_hash`: truthy (non-empty) string, exact
expected length, and `str.isalnum` (every character alphanumeric; modelled
over the characters of the string). -/
def is_valid_hash (hash_value : String) (expected_length : Nat) : Bool :=
  !(hash_value == "") && (hash_value.length == expected_length)
    && hash_value.data.all (fun c => c.isAlphanum)

/-- The candidate values one entity contributes in
`_extract_hashes_from_batch`: the `sha1HexString` values that validate at
length 40, then the `iconMd5HexString` values that validate at length 32. -/
def entity_candidates (hash_data : Entity) : List String :=
  ((hash_data.simpleValues.lookup "sha1HexString").getD []).filter
      (fun sha1_value => is_valid_hash sha1_value 40)
    ++ ((hash_data.simpleValues.lookup "iconMd5HexString").getD []).filter
      (fun md5_value => is_valid_hash md5_value 32)

/-- The extractor `_extract_hashes_from_batch`: walk the entities of the
page in order and collect the surviving values into a set. -/
def extract_hashes_from_batch (file_hashes : List Entity) : List String :=
  updateSet [] (file_hashes.foldl (fun acc hash_data => acc ++ entity_candidates hash_data) [])

/-- Python truthiness of the optional `limit` integer: `None` and `0` are
falsy, any other value is itself. -/
def limitValue : Option Nat → Option Nat
  | none => none
  | some l => if l = 0 then none else some l

/-- The page size the loop requests: `min(batch_limit, remaining_needed)`
when `limit` is truthy and `remaining_needed = limit - len(hashes)` is
truthy, else `batch_limit`. -/
def currentBatchSize (limit : Option Nat) (batch_limit hash_count : Nat) : Nat :=
  match limitValue limit with
  | some l =>
      let remaining_needed := l - hash_count
      if remaining_needed ≠ 0 then min batch_limit remaining_needed else batch_limit
  | none => batch_limit

/-- One iteration of the loop either stops with a `LoopResult` or
continues with the updated `(hashes, skip, batches_processed, errors)`. -/
inductive StepResult where
  | done (r : LoopResult)
  | next (hashes : List String) (skip batches_processed errors : Nat)
deriving DecidableEq

/-- The tail of a successful iteration of `_get_file_hashes_direct`, after
the page was merged: the short-page stop, then `skip` advance, batch count,
and the `max_batches` safety stop. -/
def loopAdvance (current_batch_size page_len max_batches : Nat) (hashes : List String)
    (skip batches_processed errors : Nat) : StepResult :=
  if page_len < current_batch_size then
    StepResult.done ⟨hashes, skip, batches_processed, errors, StopReason.shortPage⟩
  else if max_batches ≤ batches_processed + 1 then
    StepResult.done ⟨hashes, skip + current_batch_size, batches_processed + 1, errors,
      StopReason.batchCap⟩
  else
    StepResult.next hashes (skip + current_batch_size) (batches_processed + 1) errors

/-- One iteration of the `while True` body of `_get_file_hashes_direct`:
request the page at `(current_batch_size, skip)`, then either the empty-map
stop, the stagnation stop, the limit trim, the short-page stop, the safety
cap, the transient-error forward skip, or a terminal request failure. -/
def loopStep (src : Nat → Nat → Response) (limit : Option Nat)
    (batch_limit max_batches : Nat) (hashes : List String)
    (skip batches_processed errors : Nat) : StepResult :=
  match src (currentBatchSize limit batch_limit hashes.length) skip with
  | Response.ok file_hashes =>
    if file_hashes.isEmpty then
      StepResult.done ⟨hashes, skip, batches_processed, errors, StopReason.pageEmpty⟩
    else if (updateSet hashes (extract_hashes_from_batch file_hashes)).length - hashes.length
        = 0 then
      StepResult.done ⟨updateSet hashes (extract_hashes_from_batch file_hashes), skip,
        batches_processed, errors, StopReason.stagnant⟩
    else
      match limitValue limit with
      | some l =>
          if l ≤ (updateSet hashes (extract_hashes_from_batch file_hashes)).length then
            StepResult.done ⟨(updateSet hashes (extract_hashes_from_batch file_hashes)).take l,
              skip, batches_processed, errors, StopReason.limitReached⟩
          else
            loopAdvance (currentBatchSize limit batch_limit hashes.length) file_hashes.length
              max_batches (updateSet hashes (extract_hashes_from_batch file_hashes))
              skip batches_processed errors
      | none =>
          loopAdvance (currentBatchSize limit batch_limit hashes.length) file_hashes.length
            max_batches (updateSet hashes (extract_hashes_from_batch file_hashes))
            skip batches_processed errors
  | Response.non200 =>
      StepResult.done ⟨hashes, skip, batches_processed, errors + 1, StopReason.httpFailure⟩
  | Response.transientError =>
      StepResult.next hashes (skip + batch_limit) (batches_processed + 1) (errors + 1)
  | Response.requestError =>
      StepResult.done ⟨hashes, skip, batches_processed, errors + 1, StopReason.requestFailure⟩

/-- The fuelled driver of the loop. -/
def loopGo (src : Nat → Nat → Response) (limit : Option Nat) (batch_limit max_batches : Nat) :
    Nat → List String → Nat → Nat → Nat → LoopResult
  | 0, hashes, skip, batches_processed, errors =>
      ⟨hashes, skip, batches_processed, errors, StopReason.outOfFuel⟩
  | fuel + 1, hashes, skip, batches_processed, errors =>
      match loopStep src limit batch_limit max_batches hashes skip batches_processed errors with
      | StepResult.done r => r
      | StepResult.next hashes' skip' batches' errors' =>
          loopGo src limit batch_limit max_batches fuel hashes' skip' batches' errors'

/-- The primary collector `_get_file_hashes_direct`: run the loop from the
empty set with `skip = 0`, fresh statistics, and the hard `max_batches`
constant 10000 of the source. -/
def get_file_hashes_direct (src : Nat → Nat → Response) (limit : Option Nat)
    (batch_size fuel : Nat) : LoopResult :=
  loopGo src limit batch_size 10000 fuel [] 0 0 0

/-- The candidate values one Malop process contributes in
`_get_file_hashes_from_malops`: for each of the three `imageFile` fields in
order, every truthy (non-empty) string value. -/
def malop_candidates (process_data : Entity) : List String :=
  ["imageFile.md5String", "imageFile.sha1String", "imageFile.sha256String"].foldl
    (fun acc hash_field =>
      acc ++ ((process_data.simpleValues.lookup hash_field).getD []).filter
        (fun hash_value => !(hash_value == "")))
    []

/-- The fallback collector `_get_file_hashes_from_malops`: on a 200 answer
extract the Malop hashes (no length validation), on any failure count one
error and return the empty set.  The pair is (hashes, errors added). -/
def get_file_hashes_from_malops (resp : Response) : List String × Nat :=
  match resp with
  | Response.ok malop_processes =>
      (updateSet [] (malop_processes.foldl
        (fun acc process_data => acc ++ malop_candidates process_data) []), 0)
  | _ => ([], 1)

/-- The result of `_collect_hashes_efficiently`: the merged hash set,
whether the Malop fallback was queried, and the run statistics. -/
structure CollectResult where
  hashes : List String
  malops_invoked : Bool
  batches_processed : Nat
  errors : Nat
deriving DecidableEq

/-- The orchestration `_collect_hashes_efficiently`: always run the primary
collector; then, when `max_hashes is None or len(all_hashes) < max_hashes`
and `len(all_hashes) < 1000`, also query the Malop fallback and merge its
hashes with no further trimming. -/
def collect_hashes_efficiently (src : Nat → Nat → Response) (malopsResp : Response)
    (max_hashes : Option Nat) (batch_size fuel : Nat) : CollectResult :=
  let r := get_file_hashes_direct src max_hashes batch_size fuel
  let all_hashes := updateSet [] r.hashes
  let needMore : Bool := match max_hashes with
    | none => true
    | some m => decide (all_hashes.length < m)
  if needMore && decide (all_hashes.length < 1000) then
    let malops := get_file_hashes_from_malops malopsResp
    ⟨updateSet all_hashes malops.1, true, r.batches_processed, r.errors + malops.2⟩
  else
    ⟨all_hashes, false, r.batches_processed, r.errors⟩

/-- Hash-kind inference of `_save_hashes_to_csv`: the `hash_type` chosen
from the string's length. -/
def hash_type_of (hash_value : String) : String :=
  if hash_value.length = 32 then "MD5"
  else if hash_value.length = 40 then "SHA1"
  else if hash_value.length = 64 then "SHA256"
  else "UNKNOWN"

/-- Lexicographic code-point comparison of character lists: the order
Python's `sorted` uses on strings. -/
def charListLe : List Char → List Char → Bool
  | [], _ => true
  | _ :: _, [] => false
  | a :: as, b :: bs =>
      if a.toNat < b.toNat then true
      else if b.toNat < a.toNat then false
      else charListLe as bs

/-- String comparison `a <= b` as Python's `sorted` orders strings. -/
def pyStrLe (a b : String) : Bool :=
  charListLe a.data b.data

/-- Insert into an ascending list, keeping it ascending. -/
def insertSorted (a : String) : List String → List String
  | [] => [a]
  | b :: bs => if pyStrLe a b then a :: b :: bs else b :: insertSorted a bs

/-- Python `sorted(hashes)`: the elements in ascending string order. -/
def sortHashes : List String → List String
  | [] => []
  | a :: as => insertSorted a (sortHashes as)

/-- The data rows `_save_hashes_to_csv` writes: one
`(hash_value, hash_type, collection_date)` row per hash, in the order of
`sorted(hashes)`. -/
def save_rows (hashes : List String) (collection_date : String) :
    List (String × String × String) :=
  (sortHashes hashes).map (fun hash_value => (hash_value, hash_type_of hash_value, collection_date))

/-- Accumulation of the loop across a sequence of processed pages: the
per-iteration merge `hashes.update(self._extract_hashes_from_batch(...))`
of lines 354-358, folded from the empty set. -/
def accumulate_pages (pages : List (List Entity)) : List String :=
  pages.foldl (fun hashes page => updateSet hashes (extract_hashes_from_batch page)) []

/-- The distinct valid hash strings across a sequence of pages, as a
finite set. -/
def distinct_valid_hashes (pages : List (List Entity)) : Finset String :=
  pages.foldl (fun s page => s ∪ (extract_hashes_from_batch page).toFinset) ∅

/-! Concrete fixtures used by witnesses and counterexamples. -/

/-- The 40-character hash value of the end-to-end scenario. -/
def a40 : String := "aaaaaaaaaaaaaaaaaaaaaaaaaaaaaaaaaaaaaaaa"

/-- A second 40-character valid hash value. -/
def b40 : String := "bbbbbbbbbbbbbbbbbbbbbbbbbbbbbbbbbbbbbbbb"

/-- A third 40-character valid hash value. -/
def c40 : String := "cccccccccccccccccccccccccccccccccccccccc"

/-- First entity of the end-to-end scenario, with sha1 value `a40`. -/
def entityA : Entity := ⟨[("elementDisplayName", ["fileA"]), ("sha1HexString", [a40])]⟩

/-- Second entity of the end-to-end scenario: a different entity with the
same sha1 value `a40`. -/
def entityB : Entity := ⟨[("elementDisplayName", ["fileB"]), ("sha1HexString", [a40])]⟩

/-- The end-to-end scenario's source: page 1 holds `entityA`, page 2 holds
`entityB`, page 3 and beyond are empty. -/
def src4 : Nat → Nat → Response := fun _ skip =>
  if skip = 0 then Response.ok [entityA]
  else if skip = 1 then Response.ok [entityB]
  else Response.ok []

/-- The end-to-end scenario's run: batch size 1 (each page holds one
entity, so only batch size 1 avoids the short-page stop), no limit. -/
def run4 : LoopResult := get_file_hashes_direct src4 none 1 10

/-- One page holding three distinct valid sha1 values. -/
def page3 : List Entity := [⟨[("sha1HexString", [a40, b40, c40])]⟩]

/-- A source that always answers with `page3`. -/
def src3 : Nat → Nat → Response := fun _ _ => Response.ok page3

/-- The 62 alphanumeric characters used to build many distinct hashes. -/
def alphaChars : List Char :=
  "abcdefghijklmnopqrstuvwxyz0123456789ABCDEFGHIJKLMNOPQRSTUVWXYZ".data

/-- The i-th of 600 pairwise distinct valid 40-character hash strings. -/
def mkHashString (i : Nat) : String :=
  ⟨alphaChars.getD (i / 62) 'a' :: alphaChars.getD (i % 62) 'a' :: List.replicate 38 'a'⟩

/-- The 600 distinct candidate hash values. -/
def bigCandidates : List String := (List.range 600).map mkHashString

/-- One page whose single entity carries 600 distinct valid sha1 values. -/
def bigPage : List Entity := [⟨[("sha1HexString", bigCandidates)]⟩]

/-- A source that always answers with `bigPage`. -/
def bigSrc : Nat → Nat → Response := fun _ _ => Response.ok bigPage

/-- A Malop entity carrying three truthy `imageFile` hash values. -/
def malopEntity : Entity :=
  ⟨[("imageFile.md5String", ["m1", "m2"]), ("imageFile.sha1String", ["m3"])]⟩

/-- A successful Malop response holding `malopEntity`. -/
def malopResp : Response := Response.ok [malopEntity]

/-- A source for the over-target scenario: one page with one entity whose
sha1 value is `a40`, every later page empty. -/
def src10 : Nat → Nat → Response := fun _ skip =>
  if skip = 0 then Response.ok [entityA] else Response.ok []

/-! Set-insertion lemmas. -/

theorem mem_insertHash {hashes : List String} {a x : String} :
    x ∈ insertHash hashes a ↔ x ∈ hashes ∨ x = a := by
  unfold insertHash
  split
  · rename_i hmem
    constructor
    · exact fun hx => Or.inl hx
    · rintro (hx | rfl)
      · exact hx
      · exact hmem
  · simp [List.mem_append]

theorem insertHash_nodup {hashes : List String} {a : String} (h : hashes.Nodup) :
    (insertHash hashes a).Nodup := by
  unfold insertHash
  split
  · exact h
  · rename_i hmem
    simpa [List.nodup_append] using ⟨h, hmem⟩

theorem toFinset_insertHash (hashes : List String) (a : String) :
    (insertHash hashes a).toFinset = insert a hashes.toFinset := by
  unfold insertHash
  split
  · rename_i hmem
    rw [Finset.insert_eq_self.mpr (List.mem_toFinset.mpr hmem)]
  · simp [List.toFinset_append, Finset.insert_eq, Finset.union_comm]

theorem mem_updateSet {new_hashes : List String} :
    ∀ {hashes : List String} {x : String},
      x ∈ updateSet hashes new_hashes ↔ x ∈ hashes ∨ x ∈ new_hashes := by
  induction new_hashes with
  | nil => simp [updateSet]
  | cons a l ih =>
      intro hashes x
      show x ∈ updateSet (insertHash hashes a) l ↔ _
      rw [ih, mem_insertHash]
      simp only [List.mem_cons]
      tauto

theorem updateSet_nodup {new_hashes : List String} :
    ∀ {hashes : List String}, hashes.Nodup → (updateSet hashes new_hashes).Nodup := by
  induction new_hashes with
  | nil => exact fun h => h
  | cons a l ih =>
      intro hashes h
      exact ih (insertHash_nodup h)

theorem toFinset_updateSet (new_hashes : List String) :
    ∀ (hashes : List String),
      (updateSet hashes new_hashes).toFinset = hashes.toFinset ∪ new_hashes.toFinset := by
  induction new_hashes with
  | nil => simp [updateSet]
  | cons a l ih =>
      intro hashes
      show (updateSet (insertHash hashes a) l).toFinset = _
      rw [ih, toFinset_insertHash]
      ext x
      simp only [Finset.mem_union, Finset.mem_insert, List.mem_toFinset, List.toFinset_cons,
        List.mem_cons]
      tauto

theorem updateSet_exists_append (new_hashes : List String) :
    ∀ (hashes : List String), ∃ t, updateSet hashes new_hashes = hashes ++ t := by
  induction new_hashes with
  | nil => exact fun hashes => ⟨[], by simp [updateSet]⟩
  | cons a l ih =>
      intro hashes
      obtain ⟨t, ht⟩ := ih (insertHash hashes a)
      have hstep : updateSet hashes (a :: l) = updateSet (insertHash hashes a) l := rfl
      by_cases hmem : a ∈ hashes
      · refine ⟨t, ?_⟩
        rw [hstep, ht]
        unfold insertHash
        rw [if_pos hmem]
      · refine ⟨a :: t, ?_⟩
        rw [hstep, ht]
        unfold insertHash
        rw [if_neg hmem]
        simp

theorem length_le_updateSet (new_hashes hashes : List String) :
    hashes.length ≤ (updateSet hashes new_hashes).length := by
  obtain ⟨t, ht⟩ := updateSet_exists_append new_hashes hashes
  simp [ht]

theorem updateSet_eq_of_length (new_hashes hashes : List String)
    (h : (updateSet hashes new_hashes).length = hashes.length) :
    updateSet hashes new_hashes = hashes := by
  obtain ⟨t, ht⟩ := updateSet_exists_append new_hashes hashes
  rw [ht] at h ⊢
  rw [List.length_append] at h
  have : t.length = 0 := by omega
  rw [List.length_eq_zero.mp this, List.append_nil]

theorem updateSet_eq_self {new_hashes hashes : List String}
    (h : ∀ x ∈ new_hashes, x ∈ hashes) : updateSet hashes new_hashes = hashes := by
  induction new_hashes generalizing hashes with
  | nil => rfl
  | cons a l ih =>
      show updateSet (insertHash hashes a) l = hashes
      have ha : insertHash hashes a = hashes := by
        unfold insertHash
        rw [if_pos (h a (List.mem_cons_self a l))]
      rw [ha]
      exact ih fun x hx => h x (List.mem_cons_of_mem a hx)

theorem updateSet_append_of_disjoint {new_hashes : List String} :
    ∀ {hashes : List String}, new_hashes.Nodup → (∀ x ∈ new_hashes, x ∉ hashes) →
      updateSet hashes new_hashes = hashes ++ new_hashes := by
  induction new_hashes with
  | nil => exact fun _ _ => by simp [updateSet]
  | cons a l ih =>
      intro hashes hnd hdisj
      have hstep : updateSet hashes (a :: l) = updateSet (insertHash hashes a) l := rfl
      have ha : insertHash hashes a = hashes ++ [a] := by
        unfold insertHash
        rw [if_neg (hdisj a (List.mem_cons_self a l))]
      have hd2 : ∀ x ∈ l, x ∉ hashes ++ [a] := by
        intro x hx
        simp only [List.mem_append, List.mem_singleton]
        rintro (hmem | rfl)
        · exact hdisj x (List.mem_cons_of_mem a hx) hmem
        · exact (List.nodup_cons.mp hnd).1 hx
      rw [hstep, ha, ih (List.Nodup.of_cons hnd) hd2, List.append_assoc]
      simp

theorem updateSet_nil_of_nodup {l : List String} (h : l.Nodup) : updateSet [] l = l := by
  simpa using updateSet_append_of_disjoint h (by simp)

theorem length_updateSet_eq_card (new_hashes hashes : List String) (h : hashes.Nodup) :
    (updateSet hashes new_hashes).length = (hashes.toFinset ∪ new_hashes.toFinset).card := by
  rw [← toFinset_updateSet]
  exact (List.toFinset_card_of_nodup (updateSet_nodup h)).symm

/-! String-comparison and sorting lemmas. -/

theorem char_toNat_inj {a b : Char} (h : a.toNat = b.toNat) : a = b :=
  Char.eq_of_val_eq (UInt32.ext h)

theorem charListLe_cons_iff {x y : Char} {xs ys : List Char} :
    charListLe (x :: xs) (y :: ys) = true ↔
      x.toNat < y.toNat ∨ (x.toNat = y.toNat ∧ charListLe xs ys = true) := by
  simp only [charListLe]
  rcases Nat.lt_trichotomy x.toNat y.toNat with h | h | h
  · simp [h]
  · have h1 : ¬ x.toNat < y.toNat := by omega
    have h2 : ¬ y.toNat < x.toNat := by omega
    simp [h, h1, h2]
  · have h1 : ¬ x.toNat < y.toNat := by omega
    have h2 : x.toNat ≠ y.toNat := by omega
    simp [h, h1, h2]

theorem charListLe_total (xs : List Char) :
    ∀ ys, charListLe xs ys = true ∨ charListLe ys xs = true := by
  induction xs with
  | nil => exact fun ys => Or.inl rfl
  | cons x xs ih =>
      intro ys
      cases ys with
      | nil => exact Or.inr rfl
      | cons y ys =>
          rw [charListLe_cons_iff, charListLe_cons_iff]
          rcases Nat.lt_trichotomy x.toNat y.toNat with h | h | h
          · exact Or.inl (Or.inl h)
          · rcases ih ys with hle | hle
            · exact Or.inl (Or.inr ⟨h, hle⟩)
            · exact Or.inr (Or.inr ⟨h.symm, hle⟩)
          · exact Or.inr (Or.inl h)

theorem charListLe_trans (xs : List Char) :
    ∀ ys zs, charListLe xs ys = true → charListLe ys zs = true → charListLe xs zs = true := by
  induction xs with
  | nil => intro ys zs _ _; rfl
  | cons x xs ih =>
      intro ys zs h1 h2
      cases ys with
      | nil => simp [charListLe] at h1
      | cons y ys =>
          cases zs with
          | nil => simp [charListLe] at h2
          | cons z zs =>
              rw [charListLe_cons_iff] at h1 h2 ⊢
              rcases h1 with h1 | ⟨h1e, h1r⟩
              · rcases h2 with h2 | ⟨h2e, h2r⟩
                · exact Or.inl (by omega)
                · exact Or.inl (by omega)
              · rcases h2 with h2 | ⟨h2e, h2r⟩
                · exact Or.inl (by omega)
                · exact Or.inr ⟨by omega, ih ys zs h1r h2r⟩

theorem charListLe_antisymm (xs : List Char) :
    ∀ ys, charListLe xs ys = true → charListLe ys xs = true → xs = ys := by
  induction xs with
  | nil =>
      intro ys _ h2
      cases ys with
      | nil => rfl
      | cons y ys => simp [charListLe] at h2
  | cons x xs ih =>
      intro ys h1 h2
      cases ys with
      | nil => simp [charListLe] at h1
      | cons y ys =>
          rw [charListLe_cons_iff] at h1 h2
          rcases h1 with h1 | ⟨h1e, h1r⟩
          · rcases h2 with h2 | ⟨h2e, _⟩
            · omega
            · omega
          · rcases h2 with h2 | ⟨_, h2r⟩
            · omega
            · rw [char_toNat_inj h1e, ih ys h1r h2r]

theorem pyStrLe_total (a b : String) : pyStrLe a b = true ∨ pyStrLe b a = true :=
  charListLe_total a.data b.data

theorem pyStrLe_trans {a b c : String} (h1 : pyStrLe a b = true) (h2 : pyStrLe b c = true) :
    pyStrLe a c = true :=
  charListLe_trans a.data b.data c.data h1 h2

theorem pyStrLe_antisymm {a b : String} (h1 : pyStrLe a b = true) (h2 : pyStrLe b a = true) :
    a = b := by
  cases a with
  | mk da =>
      cases b with
      | mk db =>
          exact congrArg String.mk (charListLe_antisymm da db h1 h2)

theorem insertSorted_perm (a : String) (l : List String) :
    List.Perm (insertSorted a l) (a :: l) := by
  induction l with
  | nil => exact List.Perm.refl _
  | cons b bs ih =>
      unfold insertSorted
      split
      · exact List.Perm.refl _
      · exact ((ih.cons b).trans (List.Perm.swap a b bs))

theorem insertSorted_sorted {a : String} {l : List String}
    (h : l.Pairwise (fun x y => pyStrLe x y = true)) :
    (insertSorted a l).Pairwise (fun x y => pyStrLe x y = true) := by
  induction l with
  | nil => simp [insertSorted]
  | cons b bs ih =>
      unfold insertSorted
      split
      · rename_i hab
        refine List.Pairwise.cons ?_ h
        intro y hy
        rcases List.mem_cons.mp hy with rfl | hy
        · exact hab
        · exact pyStrLe_trans hab (List.rel_of_pairwise_cons h hy)
      · rename_i hab
        have hba : pyStrLe b a = true := by
          rcases pyStrLe_total a b with hle | hle
          · exact absurd hle hab
          · exact hle
        refine List.Pairwise.cons ?_ (ih (List.Pairwise.of_cons h))
        intro y hy
        have := (insertSorted_perm a bs).mem_iff.mp hy
        rcases List.mem_cons.mp this with rfl | hy'
        · exact hba
        · exact List.rel_of_pairwise_cons h hy'

theorem sortHashes_perm (l : List String) : List.Perm (sortHashes l) l := by
  induction l with
  | nil => exact List.Perm.refl _
  | cons a as ih =>
      exact (insertSorted_perm a (sortHashes as)).trans (ih.cons a)

theorem sortHashes_sorted (l : List String) :
    (sortHashes l).Pairwise (fun x y => pyStrLe x y = true) := by
  induction l with
  | nil => simp [sortHashes]
  | cons a as ih => exact insertSorted_sorted ih

theorem sortHashes_eq_of_perm {l₁ l₂ : List String} (h : List.Perm l₁ l₂) :
    sortHashes l₁ = sortHashes l₂ := by
  haveI : IsAntisymm String (fun x y => pyStrLe x y = true) := ⟨fun _ _ => pyStrLe_antisymm⟩
  exact List.eq_of_perm_of_sorted
    ((sortHashes_perm l₁).trans (h.trans (sortHashes_perm l₂).symm))
    (sortHashes_sorted l₁) (sortHashes_sorted l₂)

/-- C7: `_is_valid_hash` accepts a candidate for an expected length exactly
when the candidate is non-empty, every character is alphanumeric, and the
length equals the expected length; the function is total (it only ever
returns a Boolean), so null/empty input is simply rejected. -/
theorem c7_hash_validation_boundary (s : String) (n : Nat) :
    is_valid_hash s n = true
      ↔ (s ≠ "" ∧ (∀ c ∈ s.data, c.isAlphanum = true) ∧ s.length = n) := by
  unfold is_valid_hash
  simp only [Bool.and_eq_true, Bool.not_eq_true', beq_eq_false_iff_ne, ne_eq, beq_iff_eq,
    List.all_eq_true]
  tauto

/-- Witness for C7: the 40-character alphanumeric string `a40` is accepted
at expected length 40. -/
theorem c7_hash_validation_boundary_witness : is_valid_hash a40 40 = true :=
  (c7_hash_validation_boundary a40 40).mpr (by decide)

/-- C8: every row `_save_hashes_to_csv` writes derives its kind purely from
the hash string's length: 32 is MD5, 40 is SHA1, 64 is SHA256, anything
else UNKNOWN. -/
theorem c8_hash_kind_inference (hashes : List String) (collection_date h k d : String)
    (hmem : (h, k, d) ∈ save_rows hashes collection_date) :
    k = hash_type_of h ∧ (h.length = 32 → k = "MD5") ∧ (h.length = 40 → k = "SHA1")
      ∧ (h.length = 64 → k = "SHA256")
      ∧ (h.length ≠ 32 → h.length ≠ 40 → h.length ≠ 64 → k = "UNKNOWN") := by
  unfold save_rows at hmem
  obtain ⟨x, _, heq⟩ := List.mem_map.mp hmem
  injection heq with e1 erest
  injection erest with e2 e3
  subst e1
  subst e2
  refine ⟨rfl, ?_, ?_, ?_, ?_⟩
  · intro h32
    simp [hash_type_of, h32]
  · intro h40
    simp [hash_type_of, h40]
  · intro h64
    simp [hash_type_of, h64]
  · intro k32 k40 k64
    simp [hash_type_of, k32, k40, k64]

/-- Witness for C8: the SHA1 row of the singleton run. -/
theorem c8_hash_kind_inference_witness :
    "SHA1" = hash_type_of a40 ∧ (a40.length = 32 → "SHA1" = "MD5")
      ∧ (a40.length = 40 → "SHA1" = "SHA1") ∧ (a40.length = 64 → "SHA1" = "SHA256")
      ∧ (a40.length ≠ 32 → a40.length ≠ 40 → a40.length ≠ 64 → "SHA1" = "UNKNOWN") :=
  c8_hash_kind_inference [a40] "2025-01-01" a40 "SHA1" "2025-01-01" (by decide)

/-- C9: `_save_hashes_to_csv` emits the rows in ascending order of hash
string, and the row sequence is fully determined by the input set: two
duplicate-free inputs with the same set of elements produce identical
row sequences. -/
theorem c9_deterministic_sorted_output (h₁ h₂ : List String) (collection_date : String)
    (hn₁ : h₁.Nodup) (hn₂ : h₂.Nodup) (hset : h₁.toFinset = h₂.toFinset) :
    save_rows h₁ collection_date = save_rows h₂ collection_date
      ∧ (save_rows h₁ collection_date).Pairwise
          (fun r₁ r₂ => pyStrLe r₁.1 r₂.1 = true) := by
  constructor
  · unfold save_rows
    rw [sortHashes_eq_of_perm (List.perm_of_nodup_nodup_toFinset_eq hn₁ hn₂ hset)]
  · unfold save_rows
    rw [List.pairwise_map]
    exact sortHashes_sorted h₁

/-- Witness for C9: the same two-element set in either input order gives
the same rows. -/
theorem c9_deterministic_sorted_output_witness :
    save_rows [b40, a40] "2025-01-01" = save_rows [a40, b40] "2025-01-01" :=
  (c9_deterministic_sorted_output [b40, a40] [a40, b40] "2025-01-01"
    (by decide) (by decide) (by decide)).1

/-- C5: in every iteration whose request fails, the error counter is
incremented; a transient failure (`Connection broken` / `IncompleteRead`)
advances `skip` by the configured batch size, counts one batch and
continues the loop with the hash set untouched, while a non-200 status or
any other request failure terminates the loop, preserving the hash set
accumulated so far. -/
theorem c5_transient_error_forward_skip (src : Nat → Nat → Response) (limit : Option Nat)
    (batch_limit max_batches : Nat) (hashes : List String)
    (skip batches_processed errors : Nat) :
    (src (currentBatchSize limit batch_limit hashes.length) skip = Response.transientError →
        loopStep src limit batch_limit max_batches hashes skip batches_processed errors
          = StepResult.next hashes (skip + batch_limit) (batches_processed + 1) (errors + 1))
      ∧ (src (currentBatchSize limit batch_limit hashes.length) skip = Response.non200 →
        loopStep src limit batch_limit max_batches hashes skip batches_processed errors
          = StepResult.done ⟨hashes, skip, batches_processed, errors + 1,
              StopReason.httpFailure⟩)
      ∧ (src (currentBatchSize limit batch_limit hashes.length) skip = Response.requestError →
        loopStep src limit batch_limit max_batches hashes skip batches_processed errors
          = StepResult.done ⟨hashes, skip, batches_processed, errors + 1,
              StopReason.requestFailure⟩) := by
  refine ⟨?_, ?_, ?_⟩ <;> intro hsrc <;> unfold loopStep <;> rw [hsrc]

/-- Witness for C5: a transient failure at batch size 7 skips forward. -/
theorem c5_transient_error_forward_skip_witness :
    loopStep (fun _ _ => Response.transientError) none 7 10000 [] 0 0 0
      = StepResult.next [] 7 1 1 :=
  (c5_transient_error_forward_skip (fun _ _ => Response.transientError) none 7 10000
    [] 0 0 0).1 rfl

/-! Loop lemmas. -/

theorem loopGo_succ (src : Nat → Nat → Response) (limit : Option Nat) (bs mb n : Nat)
    (hashes : List String) (skip b e : Nat) :
    loopGo src limit bs mb (n + 1) hashes skip b e
      = match loopStep src limit bs mb hashes skip b e with
        | StepResult.done r => r
        | StepResult.next h' s' b' e' => loopGo src limit bs mb n h' s' b' e' := rfl

theorem loopStep_done_nodup {src : Nat → Nat → Response} {limit : Option Nat}
    {bs mb : Nat} {hashes : List String} {skip b e : Nat} {r : LoopResult}
    (hnd : hashes.Nodup)
    (heq : loopStep src limit bs mb hashes skip b e = StepResult.done r) :
    r.hashes.Nodup := by
  unfold loopStep loopAdvance at heq
  split at heq
  · split at heq
    · cases heq
      exact hnd
    · split at heq
      · cases heq
        exact updateSet_nodup hnd
      · split at heq
        · split at heq
          · cases heq
            exact ((updateSet_nodup hnd).sublist (List.take_sublist _ _))
          · split at heq
            · cases heq
              exact updateSet_nodup hnd
            · split at heq
              · cases heq
                exact updateSet_nodup hnd
              · exact StepResult.noConfusion heq
        · split at heq
          · cases heq
            exact updateSet_nodup hnd
          · split at heq
            · cases heq
              exact updateSet_nodup hnd
            · exact StepResult.noConfusion heq
  · cases heq
    exact hnd
  · exact StepResult.noConfusion heq
  · cases heq
    exact hnd

theorem loopStep_next_nodup {src : Nat → Nat → Response} {limit : Option Nat}
    {bs mb : Nat} {hashes : List String} {skip b e : Nat}
    {h' : List String} {s' b' e' : Nat}
    (hnd : hashes.Nodup)
    (heq : loopStep src limit bs mb hashes skip b e = StepResult.next h' s' b' e') :
    h'.Nodup := by
  unfold loopStep loopAdvance at heq
  split at heq
  · split at heq
    · exact StepResult.noConfusion heq
    · split at heq
      · exact StepResult.noConfusion heq
      · split at heq
        · split at heq
          · exact StepResult.noConfusion heq
          · split at heq
            · exact StepResult.noConfusion heq
            · split at heq
              · exact StepResult.noConfusion heq
              · cases heq
                exact updateSet_nodup hnd
        · split at heq
          · exact StepResult.noConfusion heq
          · split at heq
            · exact StepResult.noConfusion heq
            · cases heq
              exact updateSet_nodup hnd
  · exact StepResult.noConfusion heq
  · cases heq
    exact hnd
  · exact StepResult.noConfusion heq

theorem loopGo_nodup (src : Nat → Nat → Response) (limit : Option Nat) (bs mb : Nat) :
    ∀ (fuel : Nat) (hashes : List String) (skip b e : Nat), hashes.Nodup →
      (loopGo src limit bs mb fuel hashes skip b e).hashes.Nodup := by
  intro fuel
  induction fuel with
  | zero => exact fun h s b e hnd => hnd
  | succ n ih =>
      intro h s b e hnd
      rw [loopGo_succ]
      rcases hstep : loopStep src limit bs mb h s b e with r | ⟨h', s', b', e'⟩
      · exact loopStep_done_nodup hnd hstep
      · exact ih h' s' b' e' (loopStep_next_nodup hnd hstep)

theorem loopStep_done_reason {src : Nat → Nat → Response} {limit : Option Nat}
    {bs mb : Nat} {hashes : List String} {skip b e : Nat} {r : LoopResult}
    (heq : loopStep src limit bs mb hashes skip b e = StepResult.done r) :
    r.reason ≠ StopReason.outOfFuel := by
  unfold loopStep loopAdvance at heq
  split at heq
  · split at heq
    · cases heq
      exact fun h => StopReason.noConfusion h
    · split at heq
      · cases heq
        exact fun h => StopReason.noConfusion h
      · split at heq
        · split at heq
          · cases heq
            exact fun h => StopReason.noConfusion h
          · split at heq
            · cases heq
              exact fun h => StopReason.noConfusion h
            · split at heq
              · cases heq
                exact fun h => StopReason.noConfusion h
              · exact StepResult.noConfusion heq
        · split at heq
          · cases heq
            exact fun h => StopReason.noConfusion h
          · split at heq
            · cases heq
              exact fun h => StopReason.noConfusion h
            · exact StepResult.noConfusion heq
  · cases heq
    exact fun h => StopReason.noConfusion h
  · exact StepResult.noConfusion heq
  · cases heq
    exact fun h => StopReason.noConfusion h

theorem loopStep_next_hashes {src : Nat → Nat → Response} {limit : Option Nat}
    {bs mb : Nat} {hashes : List String} {skip b e : Nat}
    {h' : List String} {s' b' e' : Nat} {page : List Entity}
    (hsrc : src (currentBatchSize limit bs hashes.length) skip = Response.ok page)
    (heq : loopStep src limit bs mb hashes skip b e = StepResult.next h' s' b' e') :
    h' = updateSet hashes (extract_hashes_from_batch page) := by
  unfold loopStep loopAdvance at heq
  split at heq
  · rename_i fh hfh
    rw [hsrc] at hfh
    cases hfh
    split at heq
    · exact StepResult.noConfusion heq
    · split at heq
      · exact StepResult.noConfusion heq
      · split at heq
        · split at heq
          · exact StepResult.noConfusion heq
          · split at heq
            · exact StepResult.noConfusion heq
            · split at heq
              · exact StepResult.noConfusion heq
              · cases heq
                rfl
        · split at heq
          · exact StepResult.noConfusion heq
          · split at heq
            · exact StepResult.noConfusion heq
            · cases heq
              rfl
  · rename_i hfh
    rw [hsrc] at hfh
    exact Response.noConfusion hfh
  · rename_i hfh
    rw [hsrc] at hfh
    exact Response.noConfusion hfh
  · rename_i hfh
    rw [hsrc] at hfh
    exact Response.noConfusion hfh

theorem loopStep_stagnant {src : Nat → Nat → Response} {limit : Option Nat}
    {bs mb : Nat} {hashes : List String} {skip b e : Nat} {page : List Entity}
    (hsrc : src (currentBatchSize limit bs hashes.length) skip = Response.ok page)
    (hne : page.isEmpty = false)
    (hsub : updateSet hashes (extract_hashes_from_batch page) = hashes) :
    loopStep src limit bs mb hashes skip b e
      = StepResult.done ⟨hashes, skip, b, e, StopReason.stagnant⟩ := by
  unfold loopStep
  rw [hsrc]
  simp [hne, hsub]

/-- C2: against a source that answers every request with the same
non-empty page, the loop stops within one extra iteration after the first
page that adds zero new unique hashes: two fuel units are always enough,
the run never reports an exhausted fuel budget, and any larger fuel gives
the same result (no unbounded loop). -/
theorem c2_stagnation_termination (page : List Entity) (limit : Option Nat)
    (batch_size fuel : Nat) (hpage : page ≠ []) (hfuel : 2 ≤ fuel) :
    (get_file_hashes_direct (fun _ _ => Response.ok page) limit batch_size fuel).reason
        ≠ StopReason.outOfFuel
      ∧ get_file_hashes_direct (fun _ _ => Response.ok page) limit batch_size fuel
        = get_file_hashes_direct (fun _ _ => Response.ok page) limit batch_size 2 := by
  obtain ⟨k, rfl⟩ : ∃ k, fuel = k + 2 := ⟨fuel - 2, by omega⟩
  have hne : page.isEmpty = false := by
    cases page with
    | nil => exact absurd rfl hpage
    | cons x xs => rfl
  unfold get_file_hashes_direct
  rcases hstep : loopStep (fun _ _ => Response.ok page) limit batch_size 10000 [] 0 0 0
      with r | ⟨h', s', b', e'⟩
  · have h1 : loopGo (fun _ _ => Response.ok page) limit batch_size 10000 (k + 1 + 1) [] 0 0 0
        = r := by
      rw [loopGo_succ, hstep]
    have h2 : loopGo (fun _ _ => Response.ok page) limit batch_size 10000 2 [] 0 0 0 = r := by
      rw [loopGo_succ, hstep]
    rw [h1, h2]
    exact ⟨loopStep_done_reason hstep, rfl⟩
  · have hh' : h' = updateSet [] (extract_hashes_from_batch page) :=
      loopStep_next_hashes rfl hstep
    have hsub : updateSet h' (extract_hashes_from_batch page) = h' := by
      rw [hh']
      exact updateSet_eq_self fun x hx => mem_updateSet.mpr (Or.inr hx)
    have hstep2 : loopStep (fun _ _ => Response.ok page) limit batch_size 10000 h' s' b' e'
        = StepResult.done ⟨h', s', b', e', StopReason.stagnant⟩ :=
      loopStep_stagnant rfl hne hsub
    have h1 : loopGo (fun _ _ => Response.ok page) limit batch_size 10000 (k + 1 + 1) [] 0 0 0
        = ⟨h', s', b', e', StopReason.stagnant⟩ := by
      rw [loopGo_succ, hstep]
      show loopGo (fun _ _ => Response.ok page) limit batch_size 10000 (k + 1) h' s' b' e' = _
      rw [loopGo_succ, hstep2]
    have h2 : loopGo (fun _ _ => Response.ok page) limit batch_size 10000 2 [] 0 0 0
        = ⟨h', s', b', e', StopReason.stagnant⟩ := by
      rw [loopGo_succ, hstep]
      show loopGo (fun _ _ => Response.ok page) limit batch_size 10000 1 h' s' b' e' = _
      rw [loopGo_succ, hstep2]
    rw [h1, h2]
    exact ⟨fun h => StopReason.noConfusion h, rfl⟩

/-- Witness for C2: the constant one-entity page stops the run within two
iterations. -/
theorem c2_stagnation_termination_witness :
    (get_file_hashes_direct (fun _ _ => Response.ok [entityA]) none 1 5).reason
      ≠ StopReason.outOfFuel :=
  (c2_stagnation_termination [entityA] none 1 5 (by decide) (by omega)).1

theorem loopStep_done_limitReached {src : Nat → Nat → Response} {limit : Option Nat}
    {bs mb : Nat} {hashes : List String} {skip b e : Nat} {r : LoopResult} {l : Nat}
    (hl : limitValue limit = some l)
    (heq : loopStep src limit bs mb hashes skip b e = StepResult.done r)
    (hreason : r.reason = StopReason.limitReached) :
    r.hashes.length = l := by
  unfold loopStep loopAdvance at heq
  split at heq
  · split at heq
    · cases heq
      exact absurd hreason (by simp)
    · split at heq
      · cases heq
        exact absurd hreason (by simp)
      · split at heq
        · rename_i l' hl'
          rw [hl] at hl'
          cases hl'
          split at heq
          · rename_i hge
            cases heq
            rw [List.length_take]
            omega
          · split at heq
            · cases heq
              exact absurd hreason (by simp)
            · split at heq
              · cases heq
                exact absurd hreason (by simp)
              · exact StepResult.noConfusion heq
        · rename_i hl'
          rw [hl] at hl'
          exact Option.noConfusion hl'
  · cases heq
    exact absurd hreason (by simp)
  · exact StepResult.noConfusion heq
  · cases heq
    exact absurd hreason (by simp)

theorem loopGo_limitReached {src : Nat → Nat → Response} {limit : Option Nat}
    {bs mb l : Nat} (hl : limitValue limit = some l) :
    ∀ (fuel : Nat) (hashes : List String) (skip b e : Nat),
      (loopGo src limit bs mb fuel hashes skip b e).reason = StopReason.limitReached →
      (loopGo src limit bs mb fuel hashes skip b e).hashes.length = l := by
  intro fuel
  induction fuel with
  | zero =>
      intro h s b e hr
      exact absurd hr (by simp [loopGo])
  | succ n ih =>
      intro h s b e hr
      rw [loopGo_succ] at hr ⊢
      rcases hstep : loopStep src limit bs mb h s b e with r | ⟨h', s', b', e'⟩
      · rw [hstep] at hr
        exact loopStep_done_limitReached hl hstep hr
      · rw [hstep] at hr
        exact ih h' s' b' e' hr

/-- C3: when a target limit is set and the merged page pushes the unique
count to or past the target, the loop stops at this iteration with reason
`limitReached`, and the returned set holds exactly `target` pairwise
distinct elements, each of which was present in the accumulated superset
before trimming; moreover, any run of the collector that ends with reason
`limitReached` returns exactly `target` hashes. -/
theorem c3_limit_trimming (src : Nat → Nat → Response) (limit : Option Nat)
    (l bs mb : Nat) (page : List Entity) (hashes : List String) (skip b e : Nat)
    (hl : limitValue limit = some l)
    (hnd : hashes.Nodup)
    (hlt : hashes.length < l)
    (hsrc : src (currentBatchSize limit bs hashes.length) skip = Response.ok page)
    (hge : l ≤ (updateSet hashes (extract_hashes_from_batch page)).length) :
    (loopStep src limit bs mb hashes skip b e
        = StepResult.done ⟨(updateSet hashes (extract_hashes_from_batch page)).take l,
            skip, b, e, StopReason.limitReached⟩
      ∧ ((updateSet hashes (extract_hashes_from_batch page)).take l).length = l
      ∧ ((updateSet hashes (extract_hashes_from_batch page)).take l).Nodup
      ∧ ∀ x ∈ (updateSet hashes (extract_hashes_from_batch page)).take l,
          x ∈ updateSet hashes (extract_hashes_from_batch page))
      ∧ ∀ (src' : Nat → Nat → Response) (fuel : Nat),
          (get_file_hashes_direct src' limit bs fuel).reason = StopReason.limitReached →
          (get_file_hashes_direct src' limit bs fuel).hashes.length = l := by
  have hpage : page.isEmpty = false := by
    cases page with
    | nil =>
        exfalso
        have hid : updateSet hashes (extract_hashes_from_batch ([] : List Entity)) = hashes :=
          rfl
        rw [hid] at hge
        omega
    | cons x xs => rfl
  have hnew : ¬ ((updateSet hashes (extract_hashes_from_batch page)).length
      - hashes.length = 0) := by
    omega
  refine ⟨⟨?_, ?_, ?_, ?_⟩, ?_⟩
  · unfold loopStep
    rw [hsrc]
    simp only [hpage, Bool.false_eq_true, if_false, hnew, hl, hge, if_true]
  · rw [List.length_take]
    omega
  · exact List.Nodup.sublist (List.take_sublist _ _) (updateSet_nodup hnd)
  · exact fun x hx => List.take_subset _ _ hx
  · intro src' fuel hr
    unfold get_file_hashes_direct at hr ⊢
    exact loopGo_limitReached hl fuel [] 0 0 0 hr

/-- Witness for C3: limit 2 against a page yielding 3 uniques returns
exactly 2 elements. -/
theorem c3_limit_trimming_witness :
    ((updateSet [] (extract_hashes_from_batch page3)).take 2).length = 2 :=
  ((c3_limit_trimming src3 (some 2) 2 10 10000 page3 [] 0 0 0 rfl (by decide) (by decide) rfl
    (by decide)).1).2.1

/-- C4 counterexample: in the end-to-end scenario (page 1 = entity A with
sha1 `a40`, page 2 = entity B with the same sha1, page 3 empty, batch size
1 so that the one-entity pages are full pages), the loop does not stop
with reason `pageEmpty` and does not process 2 batches: the duplicate
second page triggers the stagnation stop first. -/
theorem c4_end_to_end_counterexample :
    run4.reason ≠ StopReason.pageEmpty ∧ run4.batches_processed ≠ 2 := by
  decide

/-- C4 amended: in the end-to-end scenario the loop returns the set
holding exactly `a40`, but it stops at the duplicate second page with
reason `stagnant` after 1 processed batch; the empty third page is never
requested. -/
theorem c4_end_to_end_scenario :
    run4.hashes = [a40] ∧ run4.batches_processed = 1
      ∧ run4.reason = StopReason.stagnant := by
  decide

theorem foldl_updateSet_nodup (pages : List (List Entity)) :
    ∀ (acc : List String), acc.Nodup →
      (pages.foldl (fun hashes page => updateSet hashes (extract_hashes_from_batch page))
        acc).Nodup := by
  induction pages with
  | nil => exact fun acc h => h
  | cons p ps ih => exact fun acc h => ih _ (updateSet_nodup h)

theorem foldl_updateSet_toFinset (pages : List (List Entity)) :
    ∀ (acc : List String),
      (pages.foldl (fun hashes page => updateSet hashes (extract_hashes_from_batch page))
          acc).toFinset
        = pages.foldl (fun s page => s ∪ (extract_hashes_from_batch page).toFinset)
            acc.toFinset := by
  induction pages with
  | nil => exact fun acc => rfl
  | cons p ps ih =>
      intro acc
      show (ps.foldl _ (updateSet acc (extract_hashes_from_batch p))).toFinset = _
      rw [ih, toFinset_updateSet, List.foldl_cons]

theorem distinct_valid_hashes_perm {pages qs : List (List Entity)}
    (h : List.Perm pages qs) :
    distinct_valid_hashes pages = distinct_valid_hashes qs := by
  unfold distinct_valid_hashes
  exact h.foldl_eq' (fun x _ y _ z => Finset.union_right_comm z _ _) ∅

/-- C1: the accumulation the loop performs over any sequence of processed
pages yields a duplicate-free set whose size is exactly the number of
distinct valid hash strings across those pages, independent of the order
in which the pages arrive; and every collector run's accumulated result is
duplicate-free whatever the source does. -/
theorem c1_dedup_invariant (pages qs : List (List Entity)) (hperm : List.Perm pages qs) :
    (accumulate_pages pages).Nodup
      ∧ (accumulate_pages pages).toFinset = distinct_valid_hashes pages
      ∧ (accumulate_pages pages).length = (distinct_valid_hashes pages).card
      ∧ (accumulate_pages qs).length = (distinct_valid_hashes pages).card
      ∧ ∀ (src : Nat → Nat → Response) (limit : Option Nat) (batch_size fuel : Nat),
          (get_file_hashes_direct src limit batch_size fuel).hashes.Nodup := by
  have hnd : ∀ pg : List (List Entity), (accumulate_pages pg).Nodup := fun pg =>
    foldl_updateSet_nodup pg [] List.nodup_nil
  have htf : ∀ pg : List (List Entity),
      (accumulate_pages pg).toFinset = distinct_valid_hashes pg := fun pg => by
    unfold accumulate_pages distinct_valid_hashes
    simpa using foldl_updateSet_toFinset pg []
  have hlen : ∀ pg : List (List Entity),
      (accumulate_pages pg).length = (distinct_valid_hashes pg).card := fun pg => by
    rw [← htf pg]
    exact (List.toFinset_card_of_nodup (hnd pg)).symm
  refine ⟨hnd pages, htf pages, hlen pages, ?_, ?_⟩
  · rw [hlen qs, distinct_valid_hashes_perm hperm]
  · intro src limit batch_size fuel
    exact loopGo_nodup src limit batch_size 10000 fuel [] 0 0 0 List.nodup_nil

/-- Witness for C1: swapping the two pages of a duplicate-carrying
sequence leaves the accumulated size equal to the distinct count. -/
theorem c1_dedup_invariant_witness :
    (accumulate_pages [[entityB], [entityA]]).length
      = (distinct_valid_hashes [[entityA], [entityB]]).card :=
  (c1_dedup_invariant [[entityA], [entityB]] [[entityB], [entityA]]
    (List.Perm.swap [entityB] [entityA] [])).2.2.2.1

/-! Lemmas on the 600-hash fixture. -/

theorem is_valid_hash_iff (s : String) (n : Nat) :
    is_valid_hash s n = true
      ↔ (s ≠ "" ∧ (∀ c ∈ s.data, c.isAlphanum = true) ∧ s.length = n) := by
  unfold is_valid_hash
  simp only [Bool.and_eq_true, Bool.not_eq_true', beq_eq_false_iff_ne, ne_eq, beq_iff_eq,
    List.all_eq_true]
  tauto

theorem alphaChars_alnum : ∀ c ∈ alphaChars, c.isAlphanum = true := by decide

theorem alphaChars_nodup : alphaChars.Nodup := by decide

theorem alphaChars_length : alphaChars.length = 62 := by decide

theorem alphaGetD_alnum (n : Nat) : (alphaChars.getD n 'a').isAlphanum = true := by
  by_cases h : n < alphaChars.length
  · rw [List.getD_eq_get _ _ h]
    exact alphaChars_alnum _ (alphaChars.get_mem n h)
  · rw [List.getD_eq_default _ _ (by omega)]
    decide

theorem mkHashString_data (i : Nat) :
    (mkHashString i).data
      = alphaChars.getD (i / 62) 'a' :: alphaChars.getD (i % 62) 'a'
          :: List.replicate 38 'a' :=
  rfl

theorem mkHashString_valid (i : Nat) : is_valid_hash (mkHashString i) 40 = true := by
  rw [is_valid_hash_iff]
  refine ⟨?_, ?_, ?_⟩
  · intro hcontra
    have hd : (mkHashString i).data = [] := by rw [hcontra]
    rw [mkHashString_data] at hd
    exact List.noConfusion hd
  · intro c hc
    rw [mkHashString_data] at hc
    rcases List.mem_cons.mp hc with rfl | hc
    · exact alphaGetD_alnum _
    · rcases List.mem_cons.mp hc with rfl | hc
      · exact alphaGetD_alnum _
      · rw [List.eq_of_mem_replicate hc]
        decide
  · show (mkHashString i).data.length = 40
    rw [mkHashString_data]
    simp

theorem mkHashString_inj {i j : Nat} (hi : i < 600) (hj : j < 600)
    (h : mkHashString i = mkHashString j) : i = j := by
  have hd := congrArg String.data h
  rw [mkHashString_data, mkHashString_data] at hd
  injection hd with h1 hrest
  injection hrest with h2 _
  have hi62 : i / 62 < alphaChars.length := by rw [alphaChars_length]; omega
  have hj62 : j / 62 < alphaChars.length := by rw [alphaChars_length]; omega
  have him : i % 62 < alphaChars.length := by rw [alphaChars_length]; omega
  have hjm : j % 62 < alphaChars.length := by rw [alphaChars_length]; omega
  rw [List.getD_eq_get _ _ hi62, List.getD_eq_get _ _ hj62] at h1
  rw [List.getD_eq_get _ _ him, List.getD_eq_get _ _ hjm] at h2
  have e1 : (⟨i / 62, hi62⟩ : Fin alphaChars.length) = ⟨j / 62, hj62⟩ :=
    (List.Nodup.get_inj_iff alphaChars_nodup).mp h1
  have e2 : (⟨i % 62, him⟩ : Fin alphaChars.length) = ⟨j % 62, hjm⟩ :=
    (List.Nodup.get_inj_iff alphaChars_nodup).mp h2
  have e1' : i / 62 = j / 62 := congrArg Fin.val e1
  have e2' : i % 62 = j % 62 := congrArg Fin.val e2
  omega

theorem bigCandidates_nodup : bigCandidates.Nodup := by
  unfold bigCandidates
  refine List.Nodup.map_on ?_ (List.nodup_range 600)
  intro x hx y hy hxy
  exact mkHashString_inj (List.mem_range.mp hx) (List.mem_range.mp hy) hxy

theorem bigCandidates_length : bigCandidates.length = 600 := by
  unfold bigCandidates
  simp

set_option maxRecDepth 4000 in
theorem extract_bigPage : extract_hashes_from_batch bigPage = bigCandidates := by
  have hfilter : bigCandidates.filter (fun v => is_valid_hash v 40) = bigCandidates :=
    List.filter_eq_self.mpr (fun v hv => by
      obtain ⟨i, _, rfl⟩ := List.mem_map.mp hv
      exact mkHashString_valid i)
  have h1 : extract_hashes_from_batch bigPage
      = updateSet [] (bigCandidates.filter (fun v => is_valid_hash v 40)) := by
    show updateSet [] ([] ++ (bigCandidates.filter (fun v => is_valid_hash v 40) ++ [])) = _
    rw [List.nil_append, List.append_nil]
  rw [h1, hfilter, updateSet_nil_of_nodup bigCandidates_nodup]

theorem loopStep_shortPage {src : Nat → Nat → Response} {limit : Option Nat}
    {bs mb : Nat} {hashes : List String} {skip b e : Nat} {page : List Entity}
    (hsrc : src (currentBatchSize limit bs hashes.length) skip = Response.ok page)
    (hne : page.isEmpty = false)
    (hnew : ¬ ((updateSet hashes (extract_hashes_from_batch page)).length
        - hashes.length = 0))
    (hlim : limitValue limit = none)
    (hshort : page.length < currentBatchSize limit bs hashes.length) :
    loopStep src limit bs mb hashes skip b e
      = StepResult.done ⟨updateSet hashes (extract_hashes_from_batch page), skip, b, e,
          StopReason.shortPage⟩ := by
  unfold loopStep loopAdvance
  rw [hsrc]
  simp only [hne, Bool.false_eq_true, if_false, hnew, hlim, hshort, if_true]

theorem bigRun_eq : get_file_hashes_direct bigSrc none 1000 5
    = ⟨bigCandidates, 0, 0, 0, StopReason.shortPage⟩ := by
  have hmerge : updateSet [] (extract_hashes_from_batch bigPage) = bigCandidates := by
    rw [extract_bigPage, updateSet_nil_of_nodup bigCandidates_nodup]
  have hnew : ¬ ((updateSet [] (extract_hashes_from_batch bigPage)).length
      - ([] : List String).length = 0) := by
    rw [hmerge, bigCandidates_length, List.length_nil]
    omega
  have hshort : bigPage.length < currentBatchSize none 1000 ([] : List String).length := by
    show (1 : Nat) < 1000
    omega
  have hsrc : bigSrc (currentBatchSize none 1000 ([] : List String).length) 0
      = Response.ok bigPage := rfl
  have hne : bigPage.isEmpty = false := rfl
  have hlim : limitValue (none : Option Nat) = none := rfl
  have hstep : loopStep bigSrc none 1000 10000 [] 0 0 0
      = StepResult.done ⟨updateSet [] (extract_hashes_from_batch bigPage), 0, 0, 0,
          StopReason.shortPage⟩ :=
    loopStep_shortPage hsrc hne hnew hlim hshort
  rw [hmerge] at hstep
  unfold get_file_hashes_direct
  rw [loopGo_succ, hstep]

set_option maxRecDepth 4000 in
/-- C6 counterexample: a run whose primary pass yields 600 unique hashes —
at least any constant in the low hundreds — still queries the Malop
fallback, because the code's sparsity threshold is 1000. -/
theorem c6_secondary_sparsity_counterexample :
    500 ≤ (get_file_hashes_direct bigSrc none 1000 5).hashes.length
      ∧ (collect_hashes_efficiently bigSrc (Response.ok []) none 1000 5).malops_invoked
        = true := by
  constructor
  · rw [bigRun_eq]
    simp [bigCandidates_length]
  · simp only [collect_hashes_efficiently]
    rw [bigRun_eq]
    simp [updateSet_nil_of_nodup, bigCandidates_nodup, bigCandidates_length]

/-- C6 amended: the secondary (Malop) collector is queried only when the
primary pass accumulated fewer than 1000 unique hashes (the code's fixed
sparsity threshold is 1000, not a constant in the low hundreds); with at
least 1000 unique primary hashes the secondary source is never queried. -/
theorem c6_secondary_sparsity_threshold (src : Nat → Nat → Response) (malopsResp : Response)
    (max_hashes : Option Nat) (batch_size fuel : Nat) :
    ((collect_hashes_efficiently src malopsResp max_hashes batch_size fuel).malops_invoked
        = true →
      (get_file_hashes_direct src max_hashes batch_size fuel).hashes.length < 1000)
      ∧ (1000 ≤ (get_file_hashes_direct src max_hashes batch_size fuel).hashes.length →
        (collect_hashes_efficiently src malopsResp max_hashes batch_size
            fuel).malops_invoked = false) := by
  have hnd : (get_file_hashes_direct src max_hashes batch_size fuel).hashes.Nodup :=
    loopGo_nodup src max_hashes batch_size 10000 fuel [] 0 0 0 List.nodup_nil
  have hall : updateSet [] (get_file_hashes_direct src max_hashes batch_size fuel).hashes
      = (get_file_hashes_direct src max_hashes batch_size fuel).hashes :=
    updateSet_nil_of_nodup hnd
  simp only [collect_hashes_efficiently]
  rw [hall]
  split
  · rename_i hcond
    have hlt : (get_file_hashes_direct src max_hashes batch_size fuel).hashes.length
        < 1000 := of_decide_eq_true (Bool.and_eq_true .. ▸ hcond).2
    exact ⟨fun _ => hlt, fun hge => absurd hlt (by omega)⟩
  · constructor
    · intro hfalse
      exact absurd hfalse (by simp)
    · intro _
      rfl

/-- Witness for C6: in a small run that does query the fallback, the
primary count is indeed below 1000. -/
theorem c6_secondary_sparsity_threshold_witness :
    (get_file_hashes_direct src10 (some 2) 1000 10).hashes.length < 1000 :=
  (c6_secondary_sparsity_threshold src10 malopResp (some 2) 1000 10).1 (by decide)

/-- C10: with a maximum set, the trim to the target happens only inside
the primary loop: whenever the primary pass ends below both the target
and the sparsity threshold, the Malop hashes are merged into the result
with no further trimming, so the merged result can exceed the requested
maximum. -/
theorem c10_target_not_enforced_after_merge (src : Nat → Nat → Response)
    (malopsResp : Response) (m batch_size fuel : Nat)
    (h1 : (get_file_hashes_direct src (some m) batch_size fuel).hashes.length < m)
    (h2 : (get_file_hashes_direct src (some m) batch_size fuel).hashes.length < 1000) :
    (collect_hashes_efficiently src malopsResp (some m) batch_size fuel).hashes
        = updateSet (get_file_hashes_direct src (some m) batch_size fuel).hashes
            (get_file_hashes_from_malops malopsResp).1
      ∧ (collect_hashes_efficiently src malopsResp (some m) batch_size
          fuel).malops_invoked = true := by
  have hnd : (get_file_hashes_direct src (some m) batch_size fuel).hashes.Nodup :=
    loopGo_nodup src (some m) batch_size 10000 fuel [] 0 0 0 List.nodup_nil
  have hall : updateSet [] (get_file_hashes_direct src (some m) batch_size fuel).hashes
      = (get_file_hashes_direct src (some m) batch_size fuel).hashes :=
    updateSet_nil_of_nodup hnd
  simp only [collect_hashes_efficiently]
  rw [hall]
  split
  · exact ⟨rfl, rfl⟩
  · rename_i hcond
    exfalso
    apply hcond
    simp [h1, h2]

/-- Witness for C10: target 2, one primary hash, three Malop hashes: the
merged result has 4 elements, exceeding the requested maximum of 2. -/
theorem c10_target_not_enforced_after_merge_witness :
    (collect_hashes_efficiently src10 malopResp (some 2) 1000 10).malops_invoked = true
      ∧ 2 < (collect_hashes_efficiently src10 malopResp (some 2) 1000 10).hashes.length :=
  ⟨(c10_target_not_enforced_after_merge src10 malopResp 2 1000 10
      (by decide) (by decide)).2,
    by decide⟩

end Cybereason
